import Mathlib

/-!
Verification of the Resume Recognition System (`main.py`) against its
natural-language specification.

Python strings are modelled as `List Char`.  Each definition below is a
shallow embedding of the correspondingly named function of `main.py`;
exceptions are modelled with `Except`, the Streamlit UI side effects that
matter to the claims (error banners, session-state writes) are returned as
explicit fields.
-/

namespace RRS

/-! ## Python string primitives -/

/-- Whitespace characters stripped by Python `str.strip()` (ASCII range). -/
def isPySpace (c : Char) : Bool :=
  c = ' ' || c = '\t' || c = '\n' || c = '\r' || c = '\x0b' || c = '\x0c'

/-- Python `s.lstrip()`. -/
def lstrip (l : List Char) : List Char := l.dropWhile isPySpace

/-- Python `s.rstrip()`. -/
def rstrip (l : List Char) : List Char := (l.reverse.dropWhile isPySpace).reverse

/-- Python `s.strip()`. -/
def strip (l : List Char) : List Char := rstrip (lstrip l)

/-- Helper used by the split functions: prepend a character to the first
piece of a non-empty piece list. -/
def consHd (c : Char) : List (List Char) → List (List Char)
  | [] => [[c]]
  | p :: ps => (c :: p) :: ps

/-- Python `s.split('\n')` (split on every single newline, keeping empty
pieces, result never empty). -/
def splitNL : List Char → List (List Char)
  | [] => [[]]
  | c :: rest => if c = '\n' then [] :: splitNL rest else consHd c (splitNL rest)

/-- Python `s.split('\n\n\n\n')`: greedy left-to-right split on the
four-newline separator, keeping empty pieces. -/
def splitNL4 : List Char → List (List Char)
  | [] => [[]]
  | [c] => [[c]]
  | [c, d] => [[c, d]]
  | [c, d, e] => [[c, d, e]]
  | c :: d :: e :: f :: rest =>
    if c = '\n' ∧ d = '\n' ∧ e = '\n' ∧ f = '\n' then
      [] :: splitNL4 rest
    else
      consHd c (splitNL4 (d :: e :: f :: rest))

/-- Python `sep.join(pieces)`. -/
def joinSep (sep : List Char) : List (List Char) → List Char
  | [] => []
  | [i] => i
  | i :: j :: is => i ++ sep ++ joinSep sep (j :: is)

/-- Python `s.replace(c, "")` for a single-character pattern `c` (removes
every occurrence). -/
def removeChar (c : Char) (l : List Char) : List Char := l.filter (· ≠ c)

/-- Fuel-driven worker for `removeTag`; the fuel only serves structural
termination and is always called with at least the length of the list. -/
def removeTagAux (tag : List Char) : Nat → List Char → List Char
  | _, [] => []
  | 0, c :: rest => c :: rest
  | fuel + 1, c :: rest =>
    if tag.isPrefixOf (c :: rest) then
      removeTagAux tag fuel (List.drop tag.length (c :: rest))
    else c :: removeTagAux tag fuel rest

/-- Python `s.replace(tag, "")` for a non-empty multi-character pattern:
greedy left-to-right removal of every non-overlapping occurrence. -/
def removeTag (tag l : List Char) : List Char := removeTagAux tag l.length l

/-- The `[STRENGTH]` tag as a character list. -/
def tagStrength : List Char := "[STRENGTH]".data

/-- The `[WEAKNESS]` tag as a character list. -/
def tagWeakness : List Char := "[WEAKNESS]".data

/-! ## LLM client: `analyze_resume_with_llm` (main.py lines 261-304) -/

/-- Sentinel returned by `analyze_resume_with_llm` after retry exhaustion. -/
def apiFailed : List Char := "API_FAILED".data

/-- Message returned when no credential is configured (line 263). -/
def noApiKeyMsg : List Char := "⚠ No Groq API key found. Please check your .env file.".data

/-- Message returned when a prior health probe recorded the backend as
unreachable (line 266). -/
def apiUnavailableMsg : List Char :=
  "API temporarily unavailable. Please refer to manual analysis guidelines below.".data

/-- One attempt of the `try` block of the retry loop, as observed from
outside: the block either raised an exception carrying a message (caught by
the `except` arm), produced a response without a usable `choices` entry
(falsy response or missing key, which silently falls through), or produced
the string `response["choices"][0]["message"]["content"]`. -/
inductive AttemptOutcome where
  | raised (msg : List Char)
  | noChoices
  | gotContent (content : List Char)
deriving DecidableEq

/-- Session-state flags set by the startup health probe (lines 210-225). -/
structure SessionApiState where
  api_tested : Bool
  api_working : Bool
deriving DecidableEq

/-- Observable outcome of one call of `analyze_resume_with_llm`: the
returned string, how many times the backend was invoked, the successive
values written to `st.session_state._last_groq_error`, and the
`st.error` banner shown on terminal failure (if any). -/
structure LlmTrace where
  result : List Char
  calls : Nat
  recorded : List (List Char)
  errorShown : Option (List Char)
deriving DecidableEq

/-- The string `f"Attempt {attempt+1}: {error_msg}"` of line 291. -/
def attemptRecord (i : Nat) (msg : List Char) : List Char :=
  "Attempt ".data ++ (Nat.repr (i + 1)).data ++ ": ".data ++ msg

/-- The `st.error` text of line 296. -/
def analysisFailedMsg (r : List Char) : List Char :=
  "❌ Analysis failed: ".data ++ r

/-- The `for attempt in range(max_retries)` loop of lines 268-304, run over
the list of remaining attempt indices (`attempt < max_retries - 1` of
line 292 is exactly "this is not the last index", i.e. the remaining index
list is non-empty). -/
def analyzeLoop (att : Nat → AttemptOutcome) : List Nat → LlmTrace
  | [] => ⟨apiFailed, 0, [], none⟩
  | i :: rest =>
    match att i with
    | .gotContent c =>
      if c ≠ [] ∧ 10 < (strip c).length then ⟨strip c, 1, [], none⟩
      else
        let t := analyzeLoop att rest
        ⟨t.result, t.calls + 1, t.recorded, t.errorShown⟩
    | .noChoices =>
      let t := analyzeLoop att rest
      ⟨t.result, t.calls + 1, t.recorded, t.errorShown⟩
    | .raised msg =>
      let r := attemptRecord i msg
      match rest with
      | [] => ⟨apiFailed, 1, [r], some (analysisFailedMsg r)⟩
      | j :: rest' =>
        let t := analyzeLoop att (j :: rest')
        ⟨t.result, t.calls + 1, r :: t.recorded, t.errorShown⟩

/-- Default of the `max_retries: int = 3` parameter (line 261). -/
def defaultMaxRetries : Nat := 3

/-- `analyze_resume_with_llm(prompt, max_retries)` (lines 261-304).  The
prompt itself does not influence control flow, so the backend behaviour is
abstracted as the per-attempt outcome function `att`. -/
def analyze_resume_with_llm (hasApiKey : Bool) (st : SessionApiState)
    (att : Nat → AttemptOutcome) (max_retries : Nat) : LlmTrace :=
  if ¬ hasApiKey then ⟨noApiKeyMsg, 0, [], none⟩
  else if st.api_tested ∧ ¬ st.api_working then ⟨apiUnavailableMsg, 0, [], none⟩
  else analyzeLoop att (List.range max_retries)

/-- A backend attempt that does not meet the success condition of
lines 285-288: it raised, or produced no usable `choices`, or produced
content that is empty or strips to at most 10 characters. -/
def attemptFails : AttemptOutcome → Prop
  | .raised _ => True
  | .noChoices => True
  | .gotContent c => ¬ (c ≠ [] ∧ 10 < (strip c).length)

/-- The record written to `st.session_state._last_groq_error` by attempt
`i`, when that attempt raised. -/
def raisedRecord (att : Nat → AttemptOutcome) (i : Nat) : Option (List Char) :=
  match att i with
  | .raised msg => some (attemptRecord i msg)
  | _ => none

/-! ## Result formatter: `format_analysis_result` (main.py lines 368-398) -/

/-- Placeholder returned by `format_analysis_result` for empty input (line 370). -/
def noContentMsg : List Char := "<p>No content to display.</p>".data

/-- The `<br>` separator joining the formatted lines (line 398). -/
def brSep : List Char := "<br>".data

/-- Python `heading.endswith(':')`. -/
def endsColon (l : List Char) : Bool := l.getLast? == some ':'

/-- Lines contributed by one (already stripped, non-empty) section
(lines 386-396): if the first line strips to a heading ending in a colon,
the heading followed by the remaining non-empty stripped lines, otherwise
the whole section.  (`len(lines) > 0` of line 387 is always true since
Python `split` never returns an empty list; the `[]` arm mirrors the
absent `else`.) -/
def processSection (s : List Char) : List (List Char) :=
  match splitNL s with
  | [] => []
  | l0 :: rest =>
    let heading := strip l0
    if endsColon heading then
      heading :: (rest.map strip).filter (· ≠ [])
    else
      [s]

/-- The bullet-glyph removals of lines 373-376, applied inside-out in
source order: `"*"`, `"+"`, `"•"`, `"*"` again. -/
def removeGlyphs (content : List Char) : List Char :=
  removeChar '*' (removeChar '•' (removeChar '+' (removeChar '*' content)))

/-- The replacement cascade of lines 372-378: the bullet glyphs, then
`"[STRENGTH]"`, then `"[WEAKNESS]"` (the `replace("", "")` of line 372 is
the identity and is omitted). -/
def applyReplacements (content : List Char) : List Char :=
  removeTag tagWeakness (removeTag tagStrength (removeGlyphs content))

/-- The `formatted_lines` list accumulated by the loop of lines 380-396. -/
def sectionItems (content : List Char) : List (List Char) :=
  (splitNL4 content).flatMap (fun sec =>
    let s := strip sec
    if s = [] then [] else processSection s)

/-- `format_analysis_result(content)` (lines 368-398). -/
def format_analysis_result (content : List Char) : List Char :=
  if content = [] then noContentMsg
  else joinSep brSep (sectionItems (applyReplacements content))

/-- The four-newline section separator of line 380. -/
def nl4 : List Char := ['\n', '\n', '\n', '\n']

/-- The three bullet glyphs removed by lines 373-376. -/
def bulletGlyphs : List Char := ['*', '+', '•']

/-- The last non-whitespace character of a string, if any (the character
that `s.strip()` ends with). -/
def lastNonWs (l : List Char) : Option Char :=
  (l.filter (fun c => !(isPySpace c))).getLast?

/-- "Already-clean text" as the specification words it: no
`[STRENGTH]`/`[WEAKNESS]` tag markers and no leading or trailing bullet
glyph (the first and last character, when present, are not glyphs). -/
def CleanOrig (x : List Char) : Prop :=
  ¬ tagStrength <:+: x ∧ ¬ tagWeakness <:+: x ∧
  (∀ c ∈ x.take 1, c ∉ bulletGlyphs) ∧
  (∀ c ∈ x.drop (x.length - 1), c ∉ bulletGlyphs)

/-- Deciding cleanliness of a concrete string. -/
instance decCleanOrig (x : List Char) : Decidable (CleanOrig x) := by
  unfold CleanOrig
  infer_instance

/-- Invariant satisfied by every entry of `formatted_lines`: non-empty,
already stripped, free of tag markers, bullet glyphs and the four-newline
separator, and if it spans several physical lines then its first line does
not strip to a colon-terminated heading. -/
def ItemOK (i : List Char) : Prop :=
  i ≠ [] ∧ strip i = i ∧
  ¬ tagStrength <:+: i ∧ ¬ tagWeakness <:+: i ∧
  '*' ∉ i ∧ '+' ∉ i ∧ '•' ∉ i ∧
  ¬ nl4 <:+: i ∧
  ('\n' ∈ i → endsColon (strip (i.takeWhile (· ≠ '\n'))) = false)

/-! ## Prompt builder: `analysis_options` and `full_prompt`
(main.py lines 517-554, 672-677, 700-707) -/

/-- Key `"Quick Overview"`. -/
def kindQuickOverview : List Char := "Quick Overview".data

/-- Key `"Issues Analysis"`. -/
def kindIssues : List Char := "Issues Analysis".data

/-- Key `"Enhancement Tips"`. -/
def kindEnhancement : List Char := "Enhancement Tips".data

/-- Key `"Job Matching"`. -/
def kindJobMatching : List Char := "Job Matching".data

/-- Key `"Complete Analysis"`. -/
def kindComplete : List Char := "Complete Analysis".data

/-- The five analysis kinds, in the order of the `analysis_options` keys. -/
def analysisKinds : List (List Char) :=
  [kindQuickOverview, kindIssues, kindEnhancement, kindJobMatching, kindComplete]

/-- The `analysis_options` dict (lines 517-554), restricted to the
`"prompt"` field of each entry, as an ordered association list. -/
def analysis_options : List (List Char × List Char) :=
  [(kindQuickOverview,
    "\n        Provide a comprehensive overview of this resume including key strengths and notable areas for improvement.\n        Focus on the candidate's experience, skills, and overall presentation.\n        ".data),
   (kindIssues,
    "\n        Analyze this resume and identify specific issues, weaknesses, and areas that need improvement.\n        For each issue identified, mark it with [WEAKNESS] and provide specific suggestions for enhancement.\n        ".data),
   (kindEnhancement,
    "\n        Provide specific, actionable tips to enhance this resume.\n        Mark positive aspects with [STRENGTH] and improvement suggestions with [WEAKNESS].\n        Include formatting, content, and presentation recommendations.\n        ".data),
   (kindJobMatching,
    "\n        Compare this resume against the job description and analyze the match.\n        Mark matching qualifications with [STRENGTH] and gaps with [WEAKNESS].\n        Provide a match percentage and specific recommendations.\n        ".data),
   (kindComplete,
    "\n        Provide a complete analysis of this resume, covering all aspects including strengths, weaknesses, and job matching.\n        ".data)]

/-- Lookup of `analysis_options[kind]["prompt"]` (`analysis_options.get`). -/
def lookupPrompt (k : List Char) : Option (List Char) :=
  (analysis_options.find? (fun p => p.1 == k)).map (·.2)

/-- The f-string of lines 702-707 building `full_prompt` for a single
analysis: the template, the resume text truncated to its first 4000
characters, the job description and a closing instruction, with the
literal indentation of the source. -/
def full_prompt (tmpl resumeText jobDescription : List Char) : List Char :=
  tmpl ++ "\n                Resume Content:\n                ".data
       ++ resumeText.take 4000
       ++ "\n                Job Description:\n                ".data
       ++ jobDescription
       ++ "\n                Please provide detailed analysis with specific examples and actionable recommendations.".data

/-- The f-string of lines 672-677 building `full_prompt` for one step of
the Complete Analysis sequence (same shape, deeper indentation). -/
def full_prompt_complete (tmpl resumeText jobDescription : List Char) : List Char :=
  tmpl ++ "\n                    Resume Content:\n                    ".data
       ++ resumeText.take 4000
       ++ "\n                    Job Description:\n                    ".data
       ++ jobDescription
       ++ "\n                    Please provide detailed analysis with specific examples and actionable recommendations.".data

/-! ## Static guidance texts: `provide_manual_analysis_tips`
(main.py lines 230-259) and the Results-page fallback (lines 711-714) -/

/-- The `"Quick Overview"` guidance text. -/
def tipQuickOverview : List Char :=
  "\n        Your resume has been uploaded and processed successfully.\n        Here are some general guidelines to review:\n        - Your contact information is prominent and current.\n        - Your experience is listed in reverse chronological order.\n        - Your skills section matches the job requirements.\n        - Look for quantifiable achievements and results.\n        ".data

/-- The `"Issues Analysis"` guidance text. -/
def tipIssues : List Char :=
  "\n        Common resume issues to check manually:\n        - Formatting problems: Inconsistent fonts, sizes, or spacing.\n        - Content issues: Typos, vague job descriptions, missing achievements.\n        - Structure problems: No clear summary, poor organization.\n        ".data

/-- The `"Enhancement Tips"` guidance text. -/
def tipEnhancement : List Char :=
  "\n        Focus on these improvement areas:\n        - Add quantifiable achievements.\n        - Use action verbs to start bullet points.\n        - Customize your resume for each job application.\n        - Include relevant keywords from the job posting.\n        ".data

/-- The `"Job Matching"` guidance text. -/
def tipJobMatching : List Char :=
  "\n        To manually assess job matching:\n        - Compare your resume against the job posting.\n        - Highlight matching skills and experience.\n        - Identify gaps: Missing technical skills, lack of industry experience.\n        ".data

/-- The dict returned by `provide_manual_analysis_tips()` (lines 230-259),
as an ordered association list: it has exactly four entries. -/
def provide_manual_analysis_tips : List (List Char × List Char) :=
  [(kindQuickOverview, tipQuickOverview),
   (kindIssues, tipIssues),
   (kindEnhancement, tipEnhancement),
   (kindJobMatching, tipJobMatching)]

/-- Dict lookup `provide_manual_analysis_tips()[k]` as an `Option`. -/
def tipsFor (k : List Char) : Option (List Char) :=
  (provide_manual_analysis_tips.find? (fun p => p.1 == k)).map (·.2)

/-- The Results-page fallback mapping of lines 711-714:
`manual_tips.get(analysis_type, manual_tips["Quick Overview"])` applied
when the analysis result is the `API_FAILED` sentinel. -/
def resultsFallback (analysisType result : List Char) : List Char :=
  if result = apiFailed then (tipsFor analysisType).getD tipQuickOverview
  else result

/-! ## PDF report: `generate_enhanced_pdf_report` (main.py lines 400-473) -/

/-- The paragraph styles defined in lines 411-445. -/
inductive RStyle where
  | title
  | heading
  | body
  | bullet
deriving DecidableEq

/-- A `reportlab` flowable as assembled into `elements`. -/
inductive RElement where
  | para (text : List Char) (style : RStyle)
  | spacer (w h : Nat)
deriving DecidableEq

/-- Message of the Python `IndexError` raised by an out-of-range string
index. -/
def indexErrorMsg : List Char := "string index out of range".data

/-- The bullet-vs-paragraph heuristic of line 460, evaluated exactly as
the Python expression
`clean_line.startswith('•') or (len(clean_line) > 0 and clean_line[0].isdigit() and clean_line[1] == '.')`:
short-circuit left to right, raising `IndexError` on `clean_line[1]`
when `clean_line` is a single digit. -/
def classifyLine : List Char → Except (List Char) Bool
  | [] => .ok false
  | c :: rest =>
    if c = '•' then .ok true
    else if c.isDigit then
      match rest with
      | [] => .error indexErrorMsg
      | d :: _ => .ok (d = '.')
    else .ok false

/-- `clean_line` of line 459 built from an already stripped line
(`replace("", "")` is the identity and is omitted). -/
def cleanLine (line : List Char) : List Char :=
  strip (removeTag tagWeakness (removeTag tagStrength line))

/-- The per-line loop of lines 455-463 over `content.split('\n')`. -/
def lineElements : List (List Char) → Except (List Char) (List RElement)
  | [] => .ok []
  | line :: rest => do
    let l := strip line
    if l = [] then lineElements rest
    else
      let clean := cleanLine l
      let isBullet ← classifyLine clean
      let es ← lineElements rest
      .ok (RElement.para clean (if isBullet then .bullet else .body) :: es)

/-- The per-section loop of lines 452-464. -/
def sectionsElements : List (List Char × List Char) → Except (List Char) (List RElement)
  | [] => .ok []
  | (sec, content) :: rest =>
    if content ≠ [] ∧ strip content ≠ [] then do
      let les ← lineElements (splitNL content)
      let res ← sectionsElements rest
      .ok ((RElement.para ("📋 ".data ++ sec) .heading :: les ++ [RElement.spacer 1 15]) ++ res)
    else sectionsElements rest

/-- The full `elements` list of lines 447-464 (title, spacer, sections). -/
def reportElements (report_data : List (List Char × List Char)) :
    Except (List Char) (List RElement) := do
  let es ← sectionsElements report_data
  .ok (RElement.para "📄 Resume Analysis Report".data .title :: RElement.spacer 1 20 :: es)

/-- `generate_enhanced_pdf_report(report_data)` (lines 400-473), with
`reportlab`'s `doc.build` abstracted as `build` and the PDF byte string
type as `β`.  An exception raised while assembling `elements`
(lines 452-464) is outside the `try` of line 466 and propagates to the
caller; a `build` failure is caught and mapped to the empty byte string
`emptyBytes` plus an error banner (lines 471-473). -/
def generate_enhanced_pdf_report {β : Type} (build : List RElement → Except (List Char) β)
    (emptyBytes : β) (report_data : List (List Char × List Char)) :
    Except (List Char) (β × Option (List Char)) := do
  let elements ← reportElements report_data
  match build elements with
  | .ok bytes => .ok (bytes, none)
  | .error e => .ok (emptyBytes, some ("Error generating PDF report: ".data ++ e))

/-! ## Document extractor: `process_pdf` (main.py lines 306-364) -/

/-- A resume upload: only the MIME type influences the control flow. -/
structure UploadedFile where
  ftype : List Char
deriving DecidableEq

/-- Observable behaviour of the OCR `try` block (lines 320-333): either it
runs to completion with the per-page rasterized image and OCR text, or it
raises somewhere, leaving the partial appends to `text_bits` and
`preview` in place for the fallback to extend. -/
inductive OcrBlock (Img : Type) where
  | success (pages : List (Img × List Char))
  | failure (partialTexts : List (List Char)) (partialPreviews : List Img)

/-- Observable behaviour of the pdfplumber block (lines 340-360): either
it raises with a message (caught at line 362), or it yields per page the
extracted text (`page.extract_text() or ""`, hence always a string) and
the optional preview image (`none` when the preview `try` of
lines 347-358 failed and was swallowed). -/
inductive PlumberBlock (Img : Type) where
  | exn (msg : List Char)
  | pages (ps : List (List Char × Option Img))

/-- The `"\n\n"` separator of lines 333 and 360. -/
def nl2 : List Char := "\n\n".data

/-- The accepted MIME type (line 312). -/
def pdfMime : List Char := "application/pdf".data

/-- The `st.error` banner of line 363. -/
def couldNotExtractMsg (msg : List Char) : List Char :=
  "Could not extract anything from this PDF: ".data ++ msg

/-- Python `try: body except Exception as e: handler(e)`. -/
def pyTry {α : Type} (body : Except (List Char) α)
    (handler : List Char → Except (List Char) α) : Except (List Char) α :=
  match body with
  | .ok a => .ok a
  | .error e => handler e

/-- `process_pdf(uploaded_file)` (lines 306-364).  The result is the pair
`(text, preview_images)` together with the optional extraction-error
banner; an uncaught exception would be an `Except.error`. -/
def process_pdf {Img : Type} (file : Option UploadedFile) (usePdf2Image hasPoppler : Bool)
    (ocr : OcrBlock Img) (plumber : PlumberBlock Img) :
    Except (List Char) ((List Char × List Img) × Option (List Char)) :=
  match file with
  | none => .ok (([], []), none)
  | some f =>
    if f.ftype ≠ pdfMime then .ok (([], []), none)
    else
      -- text_bits, preview = [], []  (line 316); the OCR route either
      -- returns (line 333) or falls through with its partial appends.
      let afterOcr : (List Char × List Img) ⊕ (List (List Char) × List Img) :=
        if usePdf2Image then
          match ocr with
          | .success pages =>
            Sum.inl (joinSep nl2 (pages.map Prod.snd), (pages.map Prod.fst).take 2)
          | .failure pt pp => Sum.inr (pt, pp)
        else Sum.inr ([], [])
      match afterOcr with
      | Sum.inl r => .ok (r, none)
      | Sum.inr (tb0, pv0) =>
        pyTry
          (match plumber with
           | .exn msg => .error msg
           | .pages ps =>
             let texts := tb0 ++ ps.map Prod.fst
             let previews := pv0 ++ (if hasPoppler then (ps.take 2).filterMap Prod.snd else [])
             .ok ((joinSep nl2 texts, previews), none))
          (fun e => .ok (([], []), some (couldNotExtractMsg e)))

/-! # Theorems

First the generic lemmas about the retry loop, then the claim theorems. -/

/-- Step equation of the retry loop: a non-raising failed attempt falls
through to the remaining attempts. -/
theorem analyzeLoop_cons_got {att : Nat → AttemptOutcome} {i : Nat} {c : List Char}
    (rest : List Nat) (hatt : att i = .gotContent c)
    (hng : ¬ (c ≠ [] ∧ 10 < (strip c).length)) :
    analyzeLoop att (i :: rest)
      = ⟨(analyzeLoop att rest).result, (analyzeLoop att rest).calls + 1,
         (analyzeLoop att rest).recorded, (analyzeLoop att rest).errorShown⟩ := by
  rw [analyzeLoop, hatt]
  simp [hng]

/-- Step equation of the retry loop: a successful attempt returns the
stripped content at once. -/
theorem analyzeLoop_cons_got_ok {att : Nat → AttemptOutcome} {i : Nat} {c : List Char}
    (rest : List Nat) (hatt : att i = .gotContent c)
    (hok : c ≠ [] ∧ 10 < (strip c).length) :
    analyzeLoop att (i :: rest) = ⟨strip c, 1, [], none⟩ := by
  rw [analyzeLoop, hatt]
  simp [hok]

/-- Step equation of the retry loop: an unusable response falls through. -/
theorem analyzeLoop_cons_noChoices {att : Nat → AttemptOutcome} {i : Nat}
    (rest : List Nat) (hatt : att i = .noChoices) :
    analyzeLoop att (i :: rest)
      = ⟨(analyzeLoop att rest).result, (analyzeLoop att rest).calls + 1,
         (analyzeLoop att rest).recorded, (analyzeLoop att rest).errorShown⟩ := by
  rw [analyzeLoop, hatt]

/-- Step equation of the retry loop: an exception on the last attempt is
recorded and reported. -/
theorem analyzeLoop_raised_last {att : Nat → AttemptOutcome} {i : Nat} {msg : List Char}
    (hatt : att i = .raised msg) :
    analyzeLoop att [i]
      = ⟨apiFailed, 1, [attemptRecord i msg],
         some (analysisFailedMsg (attemptRecord i msg))⟩ := by
  rw [analyzeLoop, hatt]

/-- Step equation of the retry loop: an exception on a non-final attempt
is recorded and the loop continues. -/
theorem analyzeLoop_raised_cons {att : Nat → AttemptOutcome} {i j : Nat} {msg : List Char}
    (rest' : List Nat) (hatt : att i = .raised msg) :
    analyzeLoop att (i :: j :: rest')
      = ⟨(analyzeLoop att (j :: rest')).result, (analyzeLoop att (j :: rest')).calls + 1,
         attemptRecord i msg :: (analyzeLoop att (j :: rest')).recorded,
         (analyzeLoop att (j :: rest')).errorShown⟩ := by
  rw [analyzeLoop, hatt]

/-- With a backend failing on every listed attempt, the retry loop returns
the `API_FAILED` sentinel and performs one backend call per index. -/
theorem analyzeLoop_all_fail (att : Nat → AttemptOutcome) (idxs : List Nat)
    (h : ∀ i ∈ idxs, attemptFails (att i)) :
    (analyzeLoop att idxs).result = apiFailed ∧
    (analyzeLoop att idxs).calls = idxs.length := by
  induction idxs with
  | nil => simp [analyzeLoop]
  | cons i rest ih =>
    have hi := h i (by simp)
    have hrest : ∀ j ∈ rest, attemptFails (att j) := fun j hj => h j (by simp [hj])
    obtain ⟨ih1, ih2⟩ := ih hrest
    cases hatt : att i with
    | gotContent c =>
      have hng : ¬ (c ≠ [] ∧ 10 < (strip c).length) := by
        simpa [attemptFails, hatt] using hi
      rw [analyzeLoop_cons_got rest hatt hng]
      simp [ih1, ih2]
    | noChoices =>
      rw [analyzeLoop_cons_noChoices rest hatt]
      simp [ih1, ih2]
    | raised msg =>
      cases rest with
      | nil => rw [analyzeLoop_raised_last hatt]; simp
      | cons j rest' =>
        rw [analyzeLoop_raised_cons rest' hatt]
        simp [ih1, ih2]

/-- With a backend failing on every listed attempt, the loop records
exactly the raised attempts (as `Attempt N: <error text>`) and shows the
terminal `st.error` banner exactly when the last attempt raised, carrying
that attempt's record. -/
theorem analyzeLoop_records (att : Nat → AttemptOutcome) (idxs : List Nat)
    (h : ∀ i ∈ idxs, attemptFails (att i)) :
    (analyzeLoop att idxs).recorded = idxs.filterMap (raisedRecord att) ∧
    (analyzeLoop att idxs).errorShown =
      (match idxs.getLast? with
       | none => none
       | some i => (raisedRecord att i).map analysisFailedMsg) := by
  induction idxs with
  | nil => simp [analyzeLoop]
  | cons i rest ih =>
    have hi := h i (by simp)
    have hrest : ∀ j ∈ rest, attemptFails (att j) := fun j hj => h j (by simp [hj])
    obtain ⟨ih1, ih2⟩ := ih hrest
    cases hatt : att i with
    | gotContent c =>
      have hng : ¬ (c ≠ [] ∧ 10 < (strip c).length) := by
        simpa [attemptFails, hatt] using hi
      rw [analyzeLoop_cons_got rest hatt hng]
      cases rest with
      | nil => simp [raisedRecord, hatt, analyzeLoop]
      | cons j rest' =>
        constructor
        · simp [ih1, raisedRecord, hatt]
        · simpa using ih2
    | noChoices =>
      rw [analyzeLoop_cons_noChoices rest hatt]
      cases rest with
      | nil => simp [raisedRecord, hatt, analyzeLoop]
      | cons j rest' =>
        constructor
        · simp [ih1, raisedRecord, hatt]
        · simpa using ih2
    | raised msg =>
      cases rest with
      | nil =>
        rw [analyzeLoop_raised_last hatt]
        simp [raisedRecord, hatt]
      | cons j rest' =>
        rw [analyzeLoop_raised_cons rest' hatt]
        constructor
        · simp [ih1, raisedRecord, hatt]
        · simpa using ih2

/-- Claim C5: with a configured credential and the backend recorded as
reachable, a backend that fails on every attempt makes
`analyze_resume_with_llm` perform exactly `max_retries` sequential backend
calls (the parameter default being 3) and return the `API_FAILED` failure
sentinel, never a success. -/
theorem c5_retry_bound (st : SessionApiState) (att : Nat → AttemptOutcome) (maxr : Nat)
    (hreach : st.api_tested = false ∨ st.api_working = true)
    (hfail : ∀ i, attemptFails (att i)) :
    (analyze_resume_with_llm true st att maxr).result = apiFailed ∧
    (analyze_resume_with_llm true st att maxr).calls = maxr ∧
    defaultMaxRetries = 3 := by
  obtain ⟨h1, h2⟩ := analyzeLoop_all_fail att (List.range maxr) (fun i _ => hfail i)
  refine ⟨?_, ?_, rfl⟩ <;>
    rcases hreach with h | h <;> simp [analyze_resume_with_llm, h, h1, h2]

/-- Witness for C5 at a concrete always-raising backend and the default
retry count. -/
theorem c5_witness :
    (analyze_resume_with_llm true ⟨true, true⟩ (fun _ => .raised "boom".data) 3).result
        = apiFailed ∧
    (analyze_resume_with_llm true ⟨true, true⟩ (fun _ => .raised "boom".data) 3).calls = 3 ∧
    defaultMaxRetries = 3 :=
  c5_retry_bound ⟨true, true⟩ (fun _ => .raised "boom".data) 3 (Or.inr rfl)
    (fun _ => trivial)

/-- Claim C7: `analyze_resume_with_llm` short-circuits without any backend
call: with no credential configured it immediately returns the missing-key
message, and when the startup health probe recorded the backend as
unreachable it immediately returns the degraded message; in both cases the
backend is called zero times. -/
theorem c7_short_circuit (st : SessionApiState) (att : Nat → AttemptOutcome) (maxr : Nat) :
    analyze_resume_with_llm false st att maxr = ⟨noApiKeyMsg, 0, [], none⟩ ∧
    (st.api_tested = true → st.api_working = false →
      analyze_resume_with_llm true st att maxr = ⟨apiUnavailableMsg, 0, [], none⟩) := by
  constructor
  · simp [analyze_resume_with_llm]
  · intro h1 h2
    simp [analyze_resume_with_llm, h1, h2]

/-- Witness for C7 at concrete session states. -/
theorem c7_witness :
    analyze_resume_with_llm false ⟨false, false⟩ (fun _ => .noChoices) 3
        = ⟨noApiKeyMsg, 0, [], none⟩ ∧
    analyze_resume_with_llm true ⟨true, false⟩ (fun _ => .noChoices) 3
        = ⟨apiUnavailableMsg, 0, [], none⟩ :=
  ⟨(c7_short_circuit ⟨false, false⟩ (fun _ => .noChoices) 3).1,
   (c7_short_circuit ⟨true, false⟩ (fun _ => .noChoices) 3).2 rfl rfl⟩

/-- Counterexample to claim C6 as stated: a backend whose every attempt
fails with a too-short completion (no exception) makes three failed
attempts, yet nothing is recorded in `_last_groq_error` and the terminal
failure is reported with no error text at all. -/
theorem c6_counterexample :
    (analyze_resume_with_llm true ⟨true, true⟩ (fun _ => .gotContent "hi".data) 3).calls = 3 ∧
    (analyze_resume_with_llm true ⟨true, true⟩ (fun _ => .gotContent "hi".data) 3).result
        = apiFailed ∧
    (analyze_resume_with_llm true ⟨true, true⟩ (fun _ => .gotContent "hi".data) 3).recorded
        = [] ∧
    (analyze_resume_with_llm true ⟨true, true⟩ (fun _ => .gotContent "hi".data) 3).errorShown
        = none := by
  decide

/-- Claim C6 (amended): during retry, every attempt that fails by raising
an exception is recorded as `Attempt N: <error text>`; attempts that fail
without raising (unusable or too-short response) are not recorded; and the
terminal failure is reported together with the most recent error text
exactly when the final attempt raised. -/
theorem c6_amended (st : SessionApiState) (att : Nat → AttemptOutcome) (maxr : Nat)
    (hreach : st.api_tested = false ∨ st.api_working = true)
    (hfail : ∀ i, attemptFails (att i)) :
    (analyze_resume_with_llm true st att maxr).recorded
        = (List.range maxr).filterMap (raisedRecord att) ∧
    (analyze_resume_with_llm true st att maxr).errorShown
        = (match (List.range maxr).getLast? with
           | none => none
           | some i => (raisedRecord att i).map analysisFailedMsg) := by
  obtain ⟨h1, h2⟩ := analyzeLoop_records att (List.range maxr) (fun i _ => hfail i)
  refine ⟨?_, ?_⟩ <;>
    rcases hreach with h | h <;> simp [analyze_resume_with_llm, h, h1, h2]

/-- Witness for C6 (amended) at a backend that raises on attempts 0 and 2
and returns a malformed response on attempt 1. -/
theorem c6_witness :
    (analyze_resume_with_llm true ⟨true, true⟩
        (fun i => if i = 1 then .noChoices else .raised "boom".data) 3).recorded
      = (List.range 3).filterMap
          (raisedRecord (fun i => if i = 1 then .noChoices else .raised "boom".data)) ∧
    (analyze_resume_with_llm true ⟨true, true⟩
        (fun i => if i = 1 then .noChoices else .raised "boom".data) 3).errorShown
      = (match (List.range 3).getLast? with
         | none => none
         | some i =>
           (raisedRecord (fun i => if i = 1 then .noChoices else .raised "boom".data) i).map
             analysisFailedMsg) :=
  c6_amended ⟨true, true⟩ (fun i => if i = 1 then .noChoices else .raised "boom".data) 3
    (Or.inr rfl) (fun i => by by_cases h : i = 1 <;> simp [attemptFails, h])

/-- Counterexample to claim C9 as stated: a first-attempt response whose
content has trimmed length over 10 but carries surrounding whitespace is
not returned as-is — the code returns the trimmed text instead. -/
theorem c9_counterexample :
    "  OK, detailed analysis...  ".data ≠ ([] : List Char) ∧
    10 < (strip "  OK, detailed analysis...  ".data).length ∧
    (analyze_resume_with_llm true ⟨true, true⟩
        (fun _ => .gotContent "  OK, detailed analysis...  ".data) 3).result
      ≠ "  OK, detailed analysis...  ".data ∧
    (analyze_resume_with_llm true ⟨true, true⟩
        (fun _ => .gotContent "  OK, detailed analysis...  ".data) 3).result
      = "OK, detailed analysis...".data := by
  decide

/-- Claim C9 (amended): if the first backend response is well-formed and
its content strips to more than 10 characters, `analyze_resume_with_llm`
returns that trimmed content as a success on the first attempt, with
exactly one backend call (zero retries) and nothing recorded. -/
theorem c9_first_attempt_success (st : SessionApiState) (att : Nat → AttemptOutcome)
    (maxr : Nat) (c : List Char)
    (hreach : st.api_tested = false ∨ st.api_working = true)
    (hm : 0 < maxr) (h0 : att 0 = .gotContent c) (hc : c ≠ [])
    (hlen : 10 < (strip c).length) :
    analyze_resume_with_llm true st att maxr = ⟨strip c, 1, [], none⟩ := by
  obtain ⟨k, rfl⟩ : ∃ k, maxr = k + 1 := ⟨maxr - 1, by omega⟩
  have hrange : List.range (k + 1) = 0 :: (List.range k).map (· + 1) :=
    List.range_succ_eq_map k
  rcases hreach with h | h <;>
    simp [analyze_resume_with_llm, h, hrange, analyzeLoop, h0, hc, hlen]

/-- Witness for C9 (amended) at the specification's example content. -/
theorem c9_witness :
    analyze_resume_with_llm true ⟨true, true⟩
        (fun _ => .gotContent "OK, detailed analysis...".data) 3
      = ⟨strip "OK, detailed analysis...".data, 1, [], none⟩ :=
  c9_first_attempt_success ⟨true, true⟩ (fun _ => .gotContent "OK, detailed analysis...".data)
    3 "OK, detailed analysis...".data (Or.inr rfl) (by decide) rfl (by decide) (by decide)

set_option maxRecDepth 16384 in
/-- Counterexample to claim C2 as stated: the static guidance library has
four entries, not five — there is no `"Complete Analysis"` entry, and the
fallback for that kind is the Quick Overview text rather than a text keyed
to it. -/
theorem c2_counterexample :
    provide_manual_analysis_tips.length = 4 ∧
    tipsFor kindComplete = none ∧
    resultsFallback kindComplete apiFailed = tipQuickOverview := by
  decide

set_option maxRecDepth 16384 in
/-- Claim C2 (amended): on the single-analysis results path the caller
maps the `API_FAILED` failure to one of the four static guidance texts
keyed by the analysis kind, falling back to the Quick Overview text for
the Complete Analysis kind; for every kind the substituted text is
non-empty and distinct from the failure sentinel. -/
theorem c2_fallback_mapping :
    resultsFallback kindQuickOverview apiFailed = tipQuickOverview ∧
    resultsFallback kindIssues apiFailed = tipIssues ∧
    resultsFallback kindEnhancement apiFailed = tipEnhancement ∧
    resultsFallback kindJobMatching apiFailed = tipJobMatching ∧
    resultsFallback kindComplete apiFailed = tipQuickOverview ∧
    ∀ k ∈ analysisKinds, resultsFallback k apiFailed ≠ apiFailed ∧
      resultsFallback k apiFailed ≠ [] := by
  decide

/-- Claim C3 (code bug): `generate_enhanced_pdf_report` can propagate an
exception to its caller.  On the section content `"5"` the bullet
heuristic of line 460 evaluates `clean_line[1]` on a single-character
string and the resulting `IndexError` escapes the function, because the
`try` of line 466 only guards `doc.build`.  By contrast a `build` failure
is caught and mapped to the empty byte string plus an error banner, as
the claim describes. -/
theorem c3_report_raises :
    generate_enhanced_pdf_report (fun _ => Except.ok (0 : Nat)) 0
        [(kindQuickOverview, "5".data)] = .error indexErrorMsg ∧
    generate_enhanced_pdf_report (fun _ => Except.error "boom".data) (0 : Nat)
        [(kindQuickOverview, "Point one.".data)]
      = .ok (0, some ("Error generating PDF report: boom".data)) :=
  ⟨rfl, rfl⟩

/-- Claim C8: for every analysis kind's template and any resume text
longer than 4000 characters, the built prompt contains exactly the first
4000 characters of the resume text as a contiguous block, and no character
beyond position 4000 influences the prompt — for the single-analysis
f-string and the Complete Analysis step f-string alike. -/
theorem c8_prompt_truncation (k tmpl resumeText jobDescription : List Char)
    (hk : lookupPrompt k = some tmpl) (hlen : 4000 < resumeText.length) :
    (∃ pre post, full_prompt tmpl resumeText jobDescription
        = pre ++ resumeText.take 4000 ++ post) ∧
    full_prompt tmpl resumeText jobDescription
        = full_prompt tmpl (resumeText.take 4000) jobDescription ∧
    (∃ pre post, full_prompt_complete tmpl resumeText jobDescription
        = pre ++ resumeText.take 4000 ++ post) ∧
    full_prompt_complete tmpl resumeText jobDescription
        = full_prompt_complete tmpl (resumeText.take 4000) jobDescription := by
  refine ⟨⟨tmpl ++ "\n                Resume Content:\n                ".data,
      "\n                Job Description:\n                ".data ++ jobDescription ++
        "\n                Please provide detailed analysis with specific examples and actionable recommendations.".data,
      by simp [full_prompt]⟩,
    by simp [full_prompt, List.take_take],
    ⟨tmpl ++ "\n                    Resume Content:\n                    ".data,
      "\n                    Job Description:\n                    ".data ++ jobDescription ++
        "\n                    Please provide detailed analysis with specific examples and actionable recommendations.".data,
      by simp [full_prompt_complete]⟩,
    by simp [full_prompt_complete, List.take_take]⟩

set_option maxRecDepth 16384 in
/-- Witness for C8 at the Quick Overview template and a 4001-character
resume text. -/
theorem c8_witness :
    (∃ pre post, full_prompt
        "\n        Provide a comprehensive overview of this resume including key strengths and notable areas for improvement.\n        Focus on the candidate's experience, skills, and overall presentation.\n        ".data
        (List.replicate 4001 'a') "JD".data
        = pre ++ (List.replicate 4001 'a').take 4000 ++ post) ∧
    full_prompt
        "\n        Provide a comprehensive overview of this resume including key strengths and notable areas for improvement.\n        Focus on the candidate's experience, skills, and overall presentation.\n        ".data
        (List.replicate 4001 'a') "JD".data
      = full_prompt
        "\n        Provide a comprehensive overview of this resume including key strengths and notable areas for improvement.\n        Focus on the candidate's experience, skills, and overall presentation.\n        ".data
        ((List.replicate 4001 'a').take 4000) "JD".data ∧
    (∃ pre post, full_prompt_complete
        "\n        Provide a comprehensive overview of this resume including key strengths and notable areas for improvement.\n        Focus on the candidate's experience, skills, and overall presentation.\n        ".data
        (List.replicate 4001 'a') "JD".data
        = pre ++ (List.replicate 4001 'a').take 4000 ++ post) ∧
    full_prompt_complete
        "\n        Provide a comprehensive overview of this resume including key strengths and notable areas for improvement.\n        Focus on the candidate's experience, skills, and overall presentation.\n        ".data
        (List.replicate 4001 'a') "JD".data
      = full_prompt_complete
        "\n        Provide a comprehensive overview of this resume including key strengths and notable areas for improvement.\n        Focus on the candidate's experience, skills, and overall presentation.\n        ".data
        ((List.replicate 4001 'a').take 4000) "JD".data :=
  c8_prompt_truncation kindQuickOverview
    "\n        Provide a comprehensive overview of this resume including key strengths and notable areas for improvement.\n        Focus on the candidate's experience, skills, and overall presentation.\n        ".data
    (List.replicate 4001 'a') "JD".data (by decide)
    (by rw [List.length_replicate]; omega)

/-- Claim C4: `process_pdf` never propagates an exception to its caller,
and when the OCR route is unavailable or fails and the text-layer route
raises as well, it returns the empty document (empty text, empty preview
list) together with the distinct extraction-error banner. -/
theorem c4_extract_total {Img : Type} (file : Option UploadedFile) (u hp : Bool)
    (ocr : OcrBlock Img) (plumber : PlumberBlock Img) :
    (∃ r, process_pdf file u hp ocr plumber = .ok r) ∧
    (∀ f pt pp msg, file = some f → f.ftype = pdfMime →
      (u = false ∨ ocr = .failure pt pp) → plumber = .exn msg →
      process_pdf file u hp ocr plumber
        = .ok (([], []), some (couldNotExtractMsg msg))) := by
  constructor
  · rcases file with _ | f
    · exact ⟨_, rfl⟩
    · by_cases hf : f.ftype = pdfMime
      · cases u <;> rcases ocr with pages | ⟨pt, pp⟩ <;> rcases plumber with msg | ps <;>
          simp [process_pdf, hf, pyTry]
      · simp [process_pdf, hf]
  · rintro f pt pp msg rfl hft hu rfl
    rcases hu with rfl | rfl
    · simp [process_pdf, hft, pyTry]
    · cases u <;> simp [process_pdf, hft, pyTry]

/-- Witness for C4 at a concrete upload whose OCR route is unavailable and
whose text-layer route raises. -/
theorem c4_witness :
    (∃ r, @process_pdf Unit (some ⟨pdfMime⟩) false false (.failure [] []) (.exn "bad xref".data)
        = .ok r) ∧
    @process_pdf Unit (some ⟨pdfMime⟩) false false (.failure [] []) (.exn "bad xref".data)
        = .ok (([], []), some (couldNotExtractMsg "bad xref".data)) :=
  ⟨(c4_extract_total (some ⟨pdfMime⟩) false false (.failure [] []) (.exn "bad xref".data)).1,
   (c4_extract_total (some ⟨pdfMime⟩) false false (.failure [] []) (.exn "bad xref".data)).2
     ⟨pdfMime⟩ [] [] "bad xref".data rfl rfl (Or.inl rfl) rfl⟩

/-- Python `sep.join` yields the empty string exactly when there is at
most one piece and every piece is empty. -/
theorem joinSep_eq_nil_iff (sep : List Char) (hsep : sep ≠ []) (items : List (List Char)) :
    joinSep sep items = [] ↔ (∀ i ∈ items, i = []) ∧ items.length ≤ 1 := by
  rcases items with _ | ⟨i, _ | ⟨j, rest⟩⟩
  · simp [joinSep]
  · simp [joinSep]
  · simp [joinSep, hsep]

/-- Counterexample to claim C1 as stated: on the pure text-layer fallback
path a two-page PDF whose pages both extract to the empty string yields
the text `"\n\n"` (the page separator alone) — a non-empty result — even
though no page has non-empty extracted text. -/
theorem c1_counterexample :
    @process_pdf Unit (some ⟨pdfMime⟩) false false (.failure [] [])
        (.pages [([], none), ([], none)]) = .ok ((['\n', '\n'], []), none) ∧
    ['\n', '\n'] ≠ ([] : List Char) ∧
    ∀ p ∈ [(([] : List Char), (none : Option Unit)), ([], none)], p.1 = [] :=
  ⟨rfl, by decide, by decide⟩

/-- Claim C1 (amended): on the text-layer fallback path (OCR not in use)
extraction returns a non-empty text iff at least one page has non-empty
extracted text or the PDF has at least two pages (in the latter case the
`"\n\n"` page separators alone make the joined text non-empty). -/
theorem c1_text_layer_iff {Img : Type} (f : UploadedFile) (hp : Bool)
    (ocr : OcrBlock Img) (ps : List (List Char × Option Img))
    (hf : f.ftype = pdfMime) :
    ∃ imgs, process_pdf (some f) false hp ocr (.pages ps)
        = .ok ((joinSep nl2 (ps.map Prod.fst), imgs), none) ∧
      (joinSep nl2 (ps.map Prod.fst) ≠ [] ↔
        (∃ t ∈ ps.map Prod.fst, t ≠ []) ∨ 2 ≤ ps.length) := by
  refine ⟨(if hp then (ps.take 2).filterMap Prod.snd else []), ?_, ?_⟩
  · cases hp <;> simp [process_pdf, hf, pyTry]
  · rw [ne_eq, joinSep_eq_nil_iff nl2 (by decide)]
    constructor
    · intro h
      rcases not_and_or.mp h with h1 | h1
      · left
        push_neg at h1
        exact h1
      · right
        rw [List.length_map] at h1
        omega
    · rintro (⟨t, ht, hne⟩ | h2) hcontra
      · exact hne (hcontra.1 t ht)
      · have hlen := hcontra.2
        rw [List.length_map] at hlen
        omega

/-- Witness for C1 (amended) at a one-page PDF with non-empty text. -/
theorem c1_witness :
    ∃ imgs, @process_pdf Unit (some ⟨pdfMime⟩) false false (.failure [] [])
        (.pages [("text".data, none)])
        = .ok ((joinSep nl2 ([("text".data, (none : Option Unit))].map Prod.fst), imgs), none) ∧
      (joinSep nl2 ([("text".data, (none : Option Unit))].map Prod.fst) ≠ [] ↔
        (∃ t ∈ [("text".data, (none : Option Unit))].map Prod.fst, t ≠ []) ∨
          2 ≤ [("text".data, (none : Option Unit))].length) :=
  c1_text_layer_iff ⟨pdfMime⟩ false (.failure [] []) [("text".data, none)] rfl

/-! ### Whitespace and `strip` lemmas -/

/-- The head of `dropWhile p` (if any) fails `p`. -/
theorem head?_dropWhile_not (p : Char → Bool) (l : List Char) :
    ∀ c, (l.dropWhile p).head? = some c → p c = false := by
  induction l with
  | nil => simp
  | cons a t ih =>
    intro c hc
    by_cases ha : p a
    · rw [List.dropWhile_cons, if_pos ha] at hc
      exact ih c hc
    · rw [List.dropWhile_cons, if_neg ha] at hc
      simp only [List.head?_cons, Option.some.injEq] at hc
      subst hc
      exact Bool.eq_false_iff.mpr ha

/-- `dropWhile p` and `filter (!p ·)` have the same head. -/
theorem head?_dropWhile_eq_filter (p : Char → Bool) (l : List Char) :
    (l.dropWhile p).head? = (l.filter (fun c => !(p c))).head? := by
  induction l with
  | nil => rfl
  | cons a t ih =>
    by_cases ha : p a <;> simp [List.dropWhile_cons, List.filter_cons, ha, ih]

/-- Dropping a `p`-satisfying prefix does not change the `(!p ·)`-filter. -/
theorem filter_dropWhile_not (p : Char → Bool) (l : List Char) :
    (l.dropWhile p).filter (fun c => !(p c)) = l.filter (fun c => !(p c)) := by
  induction l with
  | nil => rfl
  | cons a t ih =>
    by_cases ha : p a <;> simp [List.dropWhile_cons, List.filter_cons, ha, ih]

/-- The last character of `strip l` is the last non-whitespace character
of `l`. -/
theorem getLast?_strip (l : List Char) : (strip l).getLast? = lastNonWs l := by
  show (((l.dropWhile isPySpace).reverse.dropWhile isPySpace).reverse).getLast? = _
  rw [List.getLast?_reverse, head?_dropWhile_eq_filter, List.filter_reverse,
      List.head?_reverse, filter_dropWhile_not]
  rfl

/-- `rstrip` is a prefix of its argument. -/
theorem rstrip_isPref (m : List Char) : rstrip m <+: m := by
  have h : m.reverse.dropWhile isPySpace <:+ m.reverse :=
    ⟨m.reverse.takeWhile isPySpace, List.takeWhile_append_dropWhile isPySpace m.reverse⟩
  have h2 := List.reverse_prefix.mpr h
  rwa [List.reverse_reverse] at h2

/-- The head of `strip l` (if any) is not whitespace. -/
theorem head?_strip_not_ws (l : List Char) (c : Char) (hc : (strip l).head? = some c) :
    isPySpace c = false := by
  obtain ⟨t, ht⟩ := rstrip_isPref (lstrip l)
  have hc' : (rstrip (lstrip l)).head? = some c := hc
  have hh : (lstrip l).head? = some c := by
    rw [← ht, List.head?_append, hc']
    rfl
  exact head?_dropWhile_not isPySpace l c hh

/-- The last character of `strip l` (if any) is not whitespace. -/
theorem getLast?_strip_not_ws (l : List Char) (c : Char)
    (hc : (strip l).getLast? = some c) : isPySpace c = false := by
  rw [getLast?_strip] at hc
  have hmem : c ∈ l.filter (fun c => !(isPySpace c)) := by
    obtain ⟨hne, hceq⟩ := List.mem_getLast?_eq_getLast hc
    rw [hceq]
    exact List.getLast_mem hne
  have := (List.mem_filter.mp hmem).2
  simpa using this

/-- A list whose head is not whitespace is `lstrip`-fixed. -/
theorem lstrip_eq_self (l : List Char) (h : ∀ c, l.head? = some c → isPySpace c = false) :
    lstrip l = l := by
  cases l with
  | nil => rfl
  | cons a t =>
    have ha := h a rfl
    simp [lstrip, List.dropWhile_cons, ha]

/-- A list whose last character is not whitespace is `rstrip`-fixed. -/
theorem rstrip_eq_self (l : List Char) (h : ∀ c, l.getLast? = some c → isPySpace c = false) :
    rstrip l = l := by
  have hr : l.reverse.dropWhile isPySpace = l.reverse := by
    cases hrv : l.reverse with
    | nil => rfl
    | cons a t =>
      have ha : l.getLast? = some a := by
        rw [← List.head?_reverse, hrv]
        rfl
      simp [List.dropWhile_cons, h a ha]
  unfold rstrip
  rw [hr, List.reverse_reverse]

/-- A list with non-whitespace ends is `strip`-fixed. -/
theorem strip_eq_self (l : List Char)
    (h1 : ∀ c, l.head? = some c → isPySpace c = false)
    (h2 : ∀ c, l.getLast? = some c → isPySpace c = false) : strip l = l := by
  unfold strip
  rw [lstrip_eq_self l h1, rstrip_eq_self l h2]

/-- `strip` is idempotent. -/
theorem strip_idem (l : List Char) : strip (strip l) = strip l :=
  strip_eq_self _ (head?_strip_not_ws l) (getLast?_strip_not_ws l)

/-- `strip l` is a contiguous substring of `l`. -/
theorem strip_infix_self (l : List Char) : strip l <:+: l := by
  have h1 : strip l <+: lstrip l := rstrip_isPref _
  have h2 : lstrip l <:+ l :=
    ⟨l.takeWhile isPySpace, List.takeWhile_append_dropWhile isPySpace l⟩
  exact h1.isInfix.trans h2.isInfix

/-- A list containing a non-whitespace character does not strip to empty. -/
theorem strip_ne_nil_of_mem (l : List Char) (c : Char) (hc : c ∈ l)
    (hws : isPySpace c = false) : strip l ≠ [] := by
  intro h
  have hl : (strip l).getLast? = none := by rw [h]; rfl
  rw [getLast?_strip] at hl
  have hcf : c ∈ l.filter (fun c => !(isPySpace c)) :=
    List.mem_filter.mpr ⟨hc, by simp [hws]⟩
  unfold lastNonWs at hl
  rw [List.getLast?_eq_none_iff] at hl
  simp [hl] at hcf

/-! ### Split lemmas -/

/-- A contiguous substring of `t` is one of `a :: t`. -/
theorem infixCons {p t : List Char} {a : Char} (h : p <:+: t) : p <:+: a :: t := by
  obtain ⟨s, u, hsu⟩ := h
  exact ⟨a :: s, u, by rw [← hsu]; simp⟩

/-- Step equation of `splitNL` at a newline. -/
theorem splitNL_cons_nl (rest : List Char) : splitNL ('\n' :: rest) = [] :: splitNL rest := by
  rw [splitNL]
  simp

/-- Step equation of `splitNL` at a non-newline character. -/
theorem splitNL_cons_other {c : Char} (rest : List Char) (hc : ¬ c = '\n') :
    splitNL (c :: rest) = consHd c (splitNL rest) := by
  rw [splitNL, if_neg hc]

/-- `splitNL` never returns an empty piece list. -/
theorem splitNL_ne_nil (l : List Char) : splitNL l ≠ [] := by
  induction l with
  | nil => simp [splitNL]
  | cons c rest ih =>
    by_cases hc : c = '\n'
    · simp [splitNL, hc]
    · simp only [splitNL, if_neg hc]
      cases hs : splitNL rest with
      | nil => simp [consHd]
      | cons p ps => simp [consHd]

/-- The first piece of `splitNL` is the longest newline-free prefix. -/
theorem splitNL_head (l : List Char) :
    ∃ ps, splitNL l = (l.takeWhile (· ≠ '\n')) :: ps := by
  induction l with
  | nil => exact ⟨[], rfl⟩
  | cons c rest ih =>
    by_cases hc : c = '\n'
    · subst hc
      refine ⟨splitNL rest, ?_⟩
      simp [splitNL, List.takeWhile_cons]
    · obtain ⟨ps, hps⟩ := ih
      refine ⟨ps, ?_⟩
      simp [splitNL, hc, hps, consHd, List.takeWhile_cons]

/-- Pieces of `splitNL` contain no newline. -/
theorem splitNL_mem_no_nl (l : List Char) : ∀ p ∈ splitNL l, '\n' ∉ p := by
  induction l with
  | nil =>
    intro p hp
    simp [splitNL] at hp
    subst hp
    simp
  | cons c rest ih =>
    intro p hp
    by_cases hc : c = '\n'
    · subst hc
      rw [splitNL_cons_nl] at hp
      rcases List.mem_cons.mp hp with rfl | hp
      · simp
      · exact ih p hp
    · rw [splitNL_cons_other rest hc] at hp
      cases hs : splitNL rest with
      | nil => exact absurd hs (splitNL_ne_nil rest)
      | cons q qs =>
        rw [hs] at hp
        simp only [consHd, List.mem_cons] at hp
        have hq : q ∈ splitNL rest := by
          rw [hs]
          exact List.mem_cons_self _ _
        rcases hp with rfl | hp
        · intro hmem
          rcases List.mem_cons.mp hmem with h | h
          · exact hc h.symm
          · exact ih q hq h
        · exact ih p (by rw [hs]; exact List.mem_cons_of_mem _ hp)

/-- Pieces of `splitNL` are contiguous substrings of the input. -/
theorem splitNL_mem_isInfix (l : List Char) : ∀ p ∈ splitNL l, p <:+: l := by
  induction l with
  | nil =>
    intro p hp
    simp [splitNL] at hp
    subst hp
    exact List.nil_infix
  | cons c rest ih =>
    intro p hp
    by_cases hc : c = '\n'
    · subst hc
      rw [splitNL_cons_nl] at hp
      rcases List.mem_cons.mp hp with rfl | hp
      · exact List.nil_infix
      · exact infixCons (ih p hp)
    · rw [splitNL_cons_other rest hc] at hp
      cases hs : splitNL rest with
      | nil => exact absurd hs (splitNL_ne_nil rest)
      | cons q qs =>
        rw [hs] at hp
        obtain ⟨ps2, hhead⟩ := splitNL_head rest
        rw [hs] at hhead
        have hq : q = rest.takeWhile (· ≠ '\n') := (List.cons.injEq .. |>.mp hhead).1
        simp only [consHd, List.mem_cons] at hp
        rcases hp with rfl | hp
        · have hqp : q <+: rest := hq ▸ List.takeWhile_prefix _
          exact (List.cons_prefix_cons.mpr ⟨rfl, hqp⟩).isInfix
        · exact infixCons (ih p (by rw [hs]; exact List.mem_cons_of_mem _ hp))

/-- A newline-free string is a single `splitNL` piece. -/
theorem splitNL_eq_singleton (l : List Char) (h : '\n' ∉ l) : splitNL l = [l] := by
  induction l with
  | nil => rfl
  | cons c rest ih =>
    have hc : ¬ c = '\n' := by
      rintro rfl
      exact h (List.mem_cons_self _ _)
    have hrest : '\n' ∉ rest := fun hm => h (List.mem_cons_of_mem _ hm)
    simp only [splitNL, if_neg hc, ih hrest, consHd]

/-- `splitNL4` never returns an empty piece list. -/
theorem splitNL4_ne_nil (l : List Char) : splitNL4 l ≠ [] := by
  induction l using splitNL4.induct with
  | case1 => simp [splitNL4]
  | case2 c => simp [splitNL4]
  | case3 c d => simp [splitNL4]
  | case4 c d e => simp [splitNL4]
  | case5 c d e f rest h ih => simp [splitNL4, h, ih]
  | case6 c d e f rest h ih =>
    simp only [splitNL4, if_neg h]
    cases hs : splitNL4 (d :: e :: f :: rest) with
    | nil => simp [consHd]
    | cons p ps => simp [consHd]

/-- The first piece of `splitNL4` is a prefix of the input. -/
theorem splitNL4_head (l : List Char) : ∃ p ps, splitNL4 l = p :: ps ∧ p <+: l := by
  induction l using splitNL4.induct with
  | case1 => exact ⟨[], [], rfl, List.nil_prefix⟩
  | case2 c => exact ⟨[c], [], rfl, List.prefix_refl _⟩
  | case3 c d => exact ⟨[c, d], [], rfl, List.prefix_refl _⟩
  | case4 c d e => exact ⟨[c, d, e], [], rfl, List.prefix_refl _⟩
  | case5 c d e f rest h ih =>
    exact ⟨[], splitNL4 rest, by simp [splitNL4, h], List.nil_prefix⟩
  | case6 c d e f rest h ih =>
    obtain ⟨p, ps, hs, hp⟩ := ih
    refine ⟨c :: p, ps, ?_, List.cons_prefix_cons.mpr ⟨rfl, hp⟩⟩
    simp [splitNL4, h, hs, consHd]

/-- Pieces of `splitNL4` are contiguous substrings of the input. -/
theorem splitNL4_mem_isInfix (l : List Char) : ∀ p ∈ splitNL4 l, p <:+: l := by
  induction l using splitNL4.induct with
  | case1 =>
    intro p hp
    simp [splitNL4] at hp
    subst hp
    exact List.nil_infix
  | case2 c =>
    intro p hp
    simp [splitNL4] at hp
    subst hp
    exact List.infix_refl _
  | case3 c d =>
    intro p hp
    simp [splitNL4] at hp
    subst hp
    exact List.infix_refl _
  | case4 c d e =>
    intro p hp
    simp [splitNL4] at hp
    subst hp
    exact List.infix_refl _
  | case5 c d e f rest h ih =>
    intro p hp
    rw [show splitNL4 (c :: d :: e :: f :: rest) = [] :: splitNL4 rest from by
      simp [splitNL4, h]] at hp
    rcases List.mem_cons.mp hp with rfl | hp
    · exact List.nil_infix
    · exact infixCons (infixCons (infixCons (infixCons (ih p hp))))
  | case6 c d e f rest h ih =>
    intro p hp
    obtain ⟨q, qs, hs, hq⟩ := splitNL4_head (d :: e :: f :: rest)
    rw [show splitNL4 (c :: d :: e :: f :: rest) = (c :: q) :: qs from by
      simp [splitNL4, h, hs, consHd]] at hp
    rcases List.mem_cons.mp hp with rfl | hp
    · exact (List.cons_prefix_cons.mpr ⟨rfl, hq⟩).isInfix
    · have hpm : p ∈ splitNL4 (d :: e :: f :: rest) := by
        rw [hs]
        exact List.mem_cons_of_mem _ hp
      exact infixCons (ih p hpm)

/-- Pieces of `splitNL4` never contain the four-newline separator. -/
theorem splitNL4_mem_no_nl4 (l : List Char) : ∀ p ∈ splitNL4 l, ¬ nl4 <:+: p := by
  induction l using splitNL4.induct with
  | case1 =>
    intro p hp hinf
    simp [splitNL4] at hp
    subst hp
    have := hinf.length_le
    simp [nl4] at this
  | case2 c =>
    intro p hp hinf
    simp [splitNL4] at hp
    subst hp
    have := hinf.length_le
    simp [nl4] at this
  | case3 c d =>
    intro p hp hinf
    simp [splitNL4] at hp
    subst hp
    have := hinf.length_le
    simp [nl4] at this
  | case4 c d e =>
    intro p hp hinf
    simp [splitNL4] at hp
    subst hp
    have := hinf.length_le
    simp [nl4] at this
  | case5 c d e f rest h ih =>
    intro p hp
    rw [show splitNL4 (c :: d :: e :: f :: rest) = [] :: splitNL4 rest from by
      simp [splitNL4, h]] at hp
    rcases List.mem_cons.mp hp with rfl | hp
    · intro hinf
      have := hinf.length_le
      simp [nl4] at this
    · exact ih p hp
  | case6 c d e f rest h ih =>
    intro p hp
    obtain ⟨q, qs, hs, hq⟩ := splitNL4_head (d :: e :: f :: rest)
    rw [show splitNL4 (c :: d :: e :: f :: rest) = (c :: q) :: qs from by
      simp [splitNL4, h, hs, consHd]] at hp
    have hqm : q ∈ splitNL4 (d :: e :: f :: rest) := by
      rw [hs]
      exact List.mem_cons_self _ _
    rcases List.mem_cons.mp hp with rfl | hp
    · intro hinf
      rcases List.infix_cons_iff.mp hinf with hpre | hinf'
      · rw [show nl4 = '\n' :: '\n' :: '\n' :: ['\n'] from rfl] at hpre
        obtain ⟨hc1, hpre⟩ := List.cons_prefix_cons.mp hpre
        have hpre2 : ('\n' :: '\n' :: ['\n'] : List Char) <+: d :: e :: f :: rest :=
          hpre.trans hq
        obtain ⟨hd, hpre2⟩ := List.cons_prefix_cons.mp hpre2
        obtain ⟨he, hpre2⟩ := List.cons_prefix_cons.mp hpre2
        obtain ⟨hf, _⟩ := List.cons_prefix_cons.mp hpre2
        exact h ⟨hc1.symm, hd.symm, he.symm, hf.symm⟩
      · exact ih q hqm hinf'
    · exact ih p (by rw [hs]; exact List.mem_cons_of_mem _ hp)

/-- A string without the four-newline separator is a single `splitNL4`
piece. -/
theorem splitNL4_eq_singleton (l : List Char) (h : ¬ nl4 <:+: l) : splitNL4 l = [l] := by
  induction l using splitNL4.induct with
  | case1 => rfl
  | case2 c => rfl
  | case3 c d => rfl
  | case4 c d e => rfl
  | case5 c d e f rest hc ih =>
    exfalso
    apply h
    obtain ⟨rfl, rfl, rfl, rfl⟩ := hc
    exact ⟨[], rest, rfl⟩
  | case6 c d e f rest hc ih =>
    have hrest : ¬ nl4 <:+: (d :: e :: f :: rest) := fun hinf => h (infixCons hinf)
    rw [show splitNL4 (c :: d :: e :: f :: rest)
        = consHd c (splitNL4 (d :: e :: f :: rest)) from by simp [splitNL4, hc]]
    rw [ih hrest]
    rfl

/-- Every non-newline character of the input lands in some `splitNL4`
piece. -/
theorem splitNL4_mem_char (l : List Char) (x : Char) (hx : x ∈ l) (hxn : x ≠ '\n') :
    ∃ p ∈ splitNL4 l, x ∈ p := by
  induction l using splitNL4.induct with
  | case1 => simp at hx
  | case2 c => exact ⟨[c], by simp [splitNL4], by simpa using hx⟩
  | case3 c d => exact ⟨[c, d], by simp [splitNL4], by simpa using hx⟩
  | case4 c d e => exact ⟨[c, d, e], by simp [splitNL4], by simpa using hx⟩
  | case5 c d e f rest h5 ih =>
    obtain ⟨rfl, rfl, rfl, rfl⟩ := h5
    have hxr : x ∈ rest := by
      simp only [List.mem_cons] at hx
      rcases hx with rfl | rfl | rfl | rfl | hx
      · exact absurd rfl hxn
      · exact absurd rfl hxn
      · exact absurd rfl hxn
      · exact absurd rfl hxn
      · exact hx
    obtain ⟨p, hp, hxp⟩ := ih hxr
    refine ⟨p, ?_, hxp⟩
    rw [show splitNL4 ('\n' :: '\n' :: '\n' :: '\n' :: rest) = [] :: splitNL4 rest from by
      simp [splitNL4]]
    exact List.mem_cons_of_mem _ hp
  | case6 c d e f rest h6 ih =>
    obtain ⟨q, qs, hs, hq⟩ := splitNL4_head (d :: e :: f :: rest)
    have hsplit : splitNL4 (c :: d :: e :: f :: rest) = (c :: q) :: qs := by
      simp [splitNL4, h6, hs, consHd]
    rcases List.mem_cons.mp hx with rfl | hx'
    · exact ⟨x :: q, by rw [hsplit]; exact List.mem_cons_self _ _, List.mem_cons_self _ _⟩
    · obtain ⟨p, hp, hxp⟩ := ih hx'
      rw [hs] at hp
      rcases List.mem_cons.mp hp with rfl | hp'
      · exact ⟨c :: p, by rw [hsplit]; exact List.mem_cons_self _ _,
          List.mem_cons_of_mem _ hxp⟩
      · exact ⟨p, by rw [hsplit]; exact List.mem_cons_of_mem _ hp', hxp⟩

/-! ### Removal lemmas -/

/-- Removing an absent character is the identity. -/
theorem removeChar_eq_self (c : Char) (l : List Char) (h : c ∉ l) : removeChar c l = l := by
  rw [removeChar, List.filter_eq_self]
  intro a ha
  simp only [ne_eq, decide_eq_true_eq]
  rintro rfl
  exact h ha

/-- The removed character is gone. -/
theorem not_mem_removeChar (c : Char) (l : List Char) : c ∉ removeChar c l := by
  simp [removeChar]

/-- `removeChar` only removes characters. -/
theorem mem_of_mem_removeChar {c d : Char} {l : List Char} (h : d ∈ removeChar c l) :
    d ∈ l :=
  (List.mem_filter.mp h).1

/-- Removing a tag that does not occur is the identity (any fuel). -/
theorem removeTagAux_eq_self (tag : List Char) (fuel : Nat) :
    ∀ l, ¬ tag <:+: l → removeTagAux tag fuel l = l := by
  induction fuel with
  | zero => intro l _; cases l <;> rfl
  | succ fuel ih =>
    intro l h
    cases l with
    | nil => rfl
    | cons c rest =>
      have hp : ¬ tag.isPrefixOf (c :: rest) := by
        intro hpre
        exact h (List.isPrefixOf_iff_prefix.mp hpre).isInfix
      rw [show removeTagAux tag (fuel + 1) (c :: rest)
          = if tag.isPrefixOf (c :: rest) then
              removeTagAux tag fuel (List.drop tag.length (c :: rest))
            else c :: removeTagAux tag fuel rest from rfl]
      rw [if_neg hp, ih rest (fun hinf => h (infixCons hinf))]

/-- `replace(tag, "")` with no occurrence of `tag` is the identity. -/
theorem removeTag_eq_self (tag l : List Char) (h : ¬ tag <:+: l) : removeTag tag l = l :=
  removeTagAux_eq_self tag l.length l h

/-- `endswith(':')` implies non-emptiness. -/
theorem endsColon_ne_nil {l : List Char} (h : endsColon l = true) : l ≠ [] := by
  rintro rfl
  simp [endsColon] at h

/-- `strip(w).endswith(':')` is determined by the last non-whitespace
character of `w`. -/
theorem endsColon_strip (w : List Char) : endsColon (strip w) = (lastNonWs w == some ':') := by
  rw [endsColon, getLast?_strip]

/-! ### `join` lemmas -/

/-- A join starting from a non-empty piece is non-empty. -/
theorem joinSep_ne_nil (sep i : List Char) (items : List (List Char)) (hi : i ≠ []) :
    joinSep sep (i :: items) ≠ [] := by
  cases items with
  | nil => simpa [joinSep] using hi
  | cons j rest => simp [joinSep, hi]

/-- The head of a join is the head of its first piece. -/
theorem joinSep_head (sep i : List Char) (items : List (List Char)) (hi : i ≠ []) :
    (joinSep sep (i :: items)).head? = i.head? := by
  cases items with
  | nil => simp [joinSep]
  | cons j rest =>
    rw [show joinSep sep (i :: j :: rest) = i ++ (sep ++ joinSep sep (j :: rest)) from by
      rw [joinSep, List.append_assoc]]
    rw [List.head?_append]
    cases i with
    | nil => exact absurd rfl hi
    | cons a t => rfl

/-- The last character of a join of non-empty pieces is the last character
of one of them. -/
theorem joinSep_getLast (sep : List Char) (items : List (List Char))
    (hall : ∀ i ∈ items, i ≠ []) (hne : items ≠ []) :
    ∃ last ∈ items, (joinSep sep items).getLast? = last.getLast? := by
  induction items with
  | nil => exact absurd rfl hne
  | cons i rest ih =>
    cases rest with
    | nil => exact ⟨i, List.mem_cons_self _ _, by simp [joinSep]⟩
    | cons j rest' =>
      obtain ⟨last, hmem, hlast⟩ :=
        ih (fun x hx => hall x (List.mem_cons_of_mem _ hx)) (by simp)
      refine ⟨last, List.mem_cons_of_mem _ hmem, ?_⟩
      rw [show joinSep sep (i :: j :: rest') = i ++ (sep ++ joinSep sep (j :: rest')) from by
        rw [joinSep, List.append_assoc]]
      rw [List.getLast?_append, List.getLast?_append, hlast]
      have hlne : last ≠ [] := hall last (List.mem_cons_of_mem _ hmem)
      cases hl : last.getLast? with
      | none => exact absurd (List.getLast?_eq_none_iff.mp hl) hlne
      | some a => rfl

/-- Every character of a join comes from the separator or from a piece. -/
theorem mem_joinSep {sep : List Char} {items : List (List Char)} {c : Char}
    (h : c ∈ joinSep sep items) : c ∈ sep ∨ ∃ i ∈ items, c ∈ i := by
  induction items with
  | nil => simp [joinSep] at h
  | cons i rest ih =>
    cases rest with
    | nil => exact Or.inr ⟨i, by simp, by simpa [joinSep] using h⟩
    | cons j rest' =>
      rw [show joinSep sep (i :: j :: rest') = i ++ (sep ++ joinSep sep (j :: rest')) from by
        rw [joinSep, List.append_assoc]] at h
      rcases List.mem_append.mp h with hi | h2
      · exact Or.inr ⟨i, by simp, hi⟩
      · rcases List.mem_append.mp h2 with hs | h3
        · exact Or.inl hs
        · rcases ih h3 with hs | ⟨x, hx, hcx⟩
          · exact Or.inl hs
          · exact Or.inr ⟨x, List.mem_cons_of_mem _ hx, hcx⟩

/-- A prefix of `a ++ b` no longer than `a` is a prefix of `a`. -/
theorem prefix_append_of_le {w a b : List Char} (h : w <+: a ++ b)
    (hl : w.length ≤ a.length) : w <+: a := by
  have h1 := List.prefix_iff_eq_take.mp h
  rw [List.take_append_of_le_length hl] at h1
  rw [h1]
  exact List.take_prefix _ _

/-- A suffix of `a ++ b` no longer than `b` is a suffix of `b`. -/
theorem suffix_append_of_le {w a b : List Char} (h : w <:+ a ++ b)
    (hl : w.length ≤ b.length) : w <:+ b := by
  have hr : w.reverse <+: (a ++ b).reverse := List.reverse_prefix.mpr h
  rw [List.reverse_append] at hr
  have hp : w.reverse <+: b.reverse := prefix_append_of_le hr (by simpa using hl)
  exact List.reverse_prefix.mp hp

/-- An occurrence of `pat` inside `a ++ b` lies inside `a`, inside `b`, or
spans the boundary with a non-empty suffix piece in `a` and a non-empty
prefix piece in `b`. -/
theorem infix_append_cases {pat a b : List Char} (h : pat <:+: a ++ b) :
    pat <:+: a ∨ pat <:+: b ∨
      ∃ s t, s ++ t = pat ∧ s ≠ [] ∧ t ≠ [] ∧ s <:+ a ∧ t <+: b := by
  obtain ⟨u, v, huv⟩ := h
  by_cases h1 : u.length + pat.length ≤ a.length
  · left
    have hpre : u ++ pat <+: a ++ b := ⟨v, huv⟩
    have hpa : u ++ pat <+: a := prefix_append_of_le hpre (by simpa using h1)
    exact List.IsInfix.trans ⟨u, [], by simp⟩ hpa.isInfix
  · by_cases h2 : a.length ≤ u.length
    · right; left
      have hsuf : pat ++ v <:+ a ++ b := ⟨u, by rw [← List.append_assoc]; exact huv⟩
      have hlen : (pat ++ v).length ≤ b.length := by
        have hcount := congrArg List.length huv
        simp only [List.length_append] at hcount ⊢
        omega
      have hpb : pat ++ v <:+ b := suffix_append_of_le hsuf hlen
      exact List.IsInfix.trans ⟨[], v, by simp⟩ hpb.isInfix
    · right; right
      push_neg at h1 h2
      rw [List.append_assoc] at huv
      refine ⟨pat.take (a.length - u.length), pat.drop (a.length - u.length),
        List.take_append_drop .., ?_, ?_, ?_, ?_⟩
      · intro he
        have := congrArg List.length he
        simp only [List.length_take, List.length_nil] at this
        omega
      · intro he
        have := congrArg List.length he
        simp only [List.length_drop, List.length_nil] at this
        omega
      · refine ⟨u, ?_⟩
        have htk := congrArg (List.take a.length) huv
        rw [List.take_left] at htk
        rw [List.take_append_eq_append_take,
          List.take_of_length_le (show u.length ≤ a.length from by omega),
          List.take_append_of_le_length
            (show a.length - u.length ≤ pat.length from by omega)] at htk
        exact htk
      · refine ⟨v, ?_⟩
        have hdp := congrArg (List.drop a.length) huv
        rw [List.drop_left] at hdp
        rw [List.drop_append_eq_append_drop,
          List.drop_of_length_le (show u.length ≤ a.length from by omega),
          List.nil_append, List.drop_append_eq_append_drop,
          show a.length - u.length - pat.length = 0 from by omega, List.drop_zero] at hdp
        exact hdp

/-- `takeWhile` over an append whose first part wholly satisfies `p`. -/
theorem takeWhile_append_all {p : Char → Bool} {a : List Char} (b : List Char)
    (h : ∀ c ∈ a, p c = true) :
    (a ++ b).takeWhile p = a ++ b.takeWhile p := by
  induction a with
  | nil => simp
  | cons x t ih =>
    have hx := h x (by simp)
    simp [List.takeWhile_cons, hx, ih (fun c hc => h c (List.mem_cons_of_mem _ hc))]

/-- `takeWhile` over an append whose first part contains a `p`-failing
character. -/
theorem takeWhile_append_stop {p : Char → Bool} {a : List Char} (b : List Char)
    (h : ∃ c ∈ a, p c = false) :
    (a ++ b).takeWhile p = a.takeWhile p := by
  induction a with
  | nil => simp at h
  | cons x t ih =>
    by_cases hx : p x
    · obtain ⟨c, hc, hpc⟩ := h
      rcases List.mem_cons.mp hc with rfl | hc'
      · rw [hx] at hpc
        cases hpc
      · simp [List.takeWhile_cons, hx, ih ⟨c, hc', hpc⟩]
    · simp [List.takeWhile_cons, hx]

/-- If each character of a non-empty `pat` avoids `sep` and `pat` occurs
in no piece, then `pat` does not occur in the join. -/
theorem not_infix_joinSep {pat sep : List Char} (hpat : pat ≠ [])
    (hsep : sep ≠ []) (hdisj : ∀ c ∈ pat, c ∉ sep) (items : List (List Char))
    (hitems : ∀ i ∈ items, ¬ pat <:+: i) : ¬ pat <:+: joinSep sep items := by
  induction items with
  | nil =>
    intro h
    exact hpat (List.eq_nil_of_infix_nil (by simpa [joinSep] using h))
  | cons i rest ih =>
    cases rest with
    | nil =>
      simpa [joinSep] using hitems i (by simp)
    | cons j rest' =>
      intro h
      rw [show joinSep sep (i :: j :: rest') = i ++ (sep ++ joinSep sep (j :: rest')) from by
        rw [joinSep, List.append_assoc]] at h
      rcases infix_append_cases h with hin | hin | ⟨s, t, hst, hs, ht, hsuf, hpre⟩
      · exact hitems i (by simp) hin
      · rcases infix_append_cases hin with hin2 | hin2 | ⟨s, t, hst, hs, ht, hsuf, hpre⟩
        · cases pat with
          | nil => exact hpat rfl
          | cons pc pt => exact hdisj pc (by simp) (hin2.subset (by simp))
        · exact ih (fun x hx => hitems x (List.mem_cons_of_mem _ hx)) hin2
        · cases s with
          | nil => exact hs rfl
          | cons sc st =>
            have hcs : sc ∈ sep := hsuf.subset (by simp)
            have hcp : sc ∈ pat := by
              rw [← hst]
              simp
            exact hdisj sc hcp hcs
      · cases t with
        | nil => exact ht rfl
        | cons tc tt =>
          cases sep with
          | nil => exact hsep rfl
          | cons d dt =>
            obtain ⟨he, _⟩ := List.cons_prefix_cons.mp hpre
            have hcp : tc ∈ pat := by
              rw [← hst]
              simp
            refine hdisj tc hcp ?_
            rw [he]
            exact List.mem_cons_self _ _

/-! ### The formatter fixes its own output -/

/-- Evaluation of `processSection` once the line split is known. -/
theorem processSection_eq {s l0 : List Char} {rest : List (List Char)}
    (hs : splitNL s = l0 :: rest) :
    processSection s
      = if endsColon (strip l0) then strip l0 :: (rest.map strip).filter (· ≠ [])
        else [s] := by
  rw [processSection, hs]

/-- A string satisfying the item invariant is a fixed point of
`format_analysis_result`. -/
theorem format_fixed (y : List Char) (h : ItemOK y) : format_analysis_result y = y := by
  obtain ⟨hne, hstrip, hS, hW, hg1, hg2, hg3, hn4, hnl⟩ := h
  have hrepl : applyReplacements y = y := by
    rw [applyReplacements, removeGlyphs]
    rw [removeChar_eq_self '*' y hg1, removeChar_eq_self '+' y hg2,
      removeChar_eq_self '•' y hg3, removeChar_eq_self '*' y hg1,
      removeTag_eq_self _ _ hS, removeTag_eq_self _ _ hW]
  have hitems : sectionItems y = processSection y := by
    rw [sectionItems, splitNL4_eq_singleton y hn4]
    simp [hstrip, hne]
  rw [format_analysis_result, if_neg hne, hrepl, hitems]
  by_cases hnl' : '\n' ∈ y
  · obtain ⟨ps, hps⟩ := splitNL_head y
    rw [processSection_eq hps]
    rw [hnl hnl']
    simp [joinSep]
  · have hsingle : splitNL y = [y] := splitNL_eq_singleton y hnl'
    rw [processSection_eq hsingle]
    by_cases hec : endsColon (strip y) = true
    · rw [if_pos hec]
      simp [hstrip, joinSep]
    · rw [if_neg hec]
      simp [joinSep]

/-- Package the item invariant from infix-transfer facts. -/
theorem itemOK_mk (x z : List Char)
    (hS : ¬ tagStrength <:+: x) (hW : ¬ tagWeakness <:+: x)
    (hg1 : '*' ∉ x) (hg2 : '+' ∉ x) (hg3 : '•' ∉ x)
    (hzx : z <:+: x) (hzne : z ≠ []) (hzstrip : strip z = z)
    (hzn4 : ¬ nl4 <:+: z)
    (hznl : '\n' ∈ z → endsColon (strip (z.takeWhile (· ≠ '\n'))) = false) :
    ItemOK z :=
  ⟨hzne, hzstrip, fun hh => hS (hh.trans hzx), fun hh => hW (hh.trans hzx),
   fun hm => hg1 (hzx.subset hm), fun hm => hg2 (hzx.subset hm),
   fun hm => hg3 (hzx.subset hm), hzn4, hznl⟩

/-- A newline-free string contains no four-newline separator. -/
theorem no_nl4_of_no_nl {z : List Char} (hz : '\n' ∉ z) : ¬ nl4 <:+: z := fun hinf =>
  hz (hinf.subset (by simp [nl4]))

/-- `removeChar` keeps every other character. -/
theorem mem_removeChar_of_ne {c d : Char} {l : List Char} (h : c ∈ l) (hne : c ≠ d) :
    c ∈ removeChar d l :=
  List.mem_filter.mpr ⟨h, by simp [hne]⟩

/-- `processSection` always contributes at least one line. -/
theorem processSection_ne_nil (s : List Char) : processSection s ≠ [] := by
  obtain ⟨ps, hps⟩ := splitNL_head s
  rw [processSection_eq hps]
  split <;> simp

/-- Every entry of `formatted_lines` satisfies the item invariant, for a
content free of tag markers and bullet glyphs. -/
theorem sectionItems_ok (x : List Char)
    (hS : ¬ tagStrength <:+: x) (hW : ¬ tagWeakness <:+: x)
    (hg1 : '*' ∉ x) (hg2 : '+' ∉ x) (hg3 : '•' ∉ x) :
    ∀ i ∈ sectionItems x, ItemOK i := by
  intro i hi
  rw [sectionItems, List.mem_flatMap] at hi
  obtain ⟨sec, hsec, hisec⟩ := hi
  by_cases hsnil : strip sec = []
  · simp [hsnil] at hisec
  · simp only [if_neg hsnil] at hisec
    have hsx : strip sec <:+: x := (strip_infix_self sec).trans (splitNL4_mem_isInfix x sec hsec)
    have hsn4 : ¬ nl4 <:+: strip sec := fun hh =>
      splitNL4_mem_no_nl4 x sec hsec (hh.trans (strip_infix_self sec))
    obtain ⟨ps, hps⟩ := splitNL_head (strip sec)
    rw [processSection_eq hps] at hisec
    by_cases hec : endsColon (strip ((strip sec).takeWhile (· ≠ '\n'))) = true
    · rw [if_pos hec] at hisec
      rcases List.mem_cons.mp hisec with rfl | hitail
      · -- the colon heading itself
        have hl0 : (strip sec).takeWhile (· ≠ '\n') ∈ splitNL (strip sec) := by
          rw [hps]
          exact List.mem_cons_self _ _
        have hnl : '\n' ∉ strip ((strip sec).takeWhile (· ≠ '\n')) := fun hm =>
          splitNL_mem_no_nl (strip sec) _ hl0 ((strip_infix_self _).subset hm)
        refine itemOK_mk x _ hS hW hg1 hg2 hg3 ?_ (endsColon_ne_nil hec)
          (strip_idem _) (no_nl4_of_no_nl hnl) (fun hm => absurd hm hnl)
        exact ((strip_infix_self _).trans (splitNL_mem_isInfix _ _ hl0)).trans hsx
      · -- a stripped non-empty body line
        obtain ⟨him, hine⟩ := List.mem_filter.mp hitail
        obtain ⟨lk, hlk, rfl⟩ := List.mem_map.mp him
        have hlkm : lk ∈ splitNL (strip sec) := by
          rw [hps]
          exact List.mem_cons_of_mem _ hlk
        have hnl : '\n' ∉ strip lk := fun hm =>
          splitNL_mem_no_nl (strip sec) lk hlkm ((strip_infix_self _).subset hm)
        refine itemOK_mk x _ hS hW hg1 hg2 hg3 ?_ (by simpa using hine)
          (strip_idem _) (no_nl4_of_no_nl hnl) (fun hm => absurd hm hnl)
        exact ((strip_infix_self _).trans (splitNL_mem_isInfix _ _ hlkm)).trans hsx
    · rw [if_neg hec] at hisec
      rcases List.mem_cons.mp hisec with rfl | hfalse
      · refine itemOK_mk x _ hS hW hg1 hg2 hg3 hsx hsnil (strip_idem _) hsn4
          (fun _ => ?_)
        simpa using hec
      · simp at hfalse

/-- When a join of invariant-satisfying items spans several physical
lines, its first line does not strip to a colon-terminated heading. -/
theorem joinSep_first_line (items : List (List Char))
    (hprops : ∀ i ∈ items, ItemOK i) (hn : '\n' ∈ joinSep brSep items) :
    endsColon (strip ((joinSep brSep items).takeWhile (· ≠ '\n'))) = false := by
  induction items with
  | nil => simp [joinSep] at hn
  | cons i rest ih =>
    cases rest with
    | nil =>
      rw [show joinSep brSep [i] = i from by rw [joinSep]] at hn ⊢
      exact (hprops i (by simp)).2.2.2.2.2.2.2.2 hn
    | cons j rest' =>
      have hstep : joinSep brSep (i :: j :: rest')
          = i ++ (brSep ++ joinSep brSep (j :: rest')) := by
        rw [joinSep, List.append_assoc]
      rw [hstep] at hn ⊢
      by_cases hni : '\n' ∈ i
      · rw [takeWhile_append_stop _ ⟨'\n', hni, by simp⟩]
        exact (hprops i (by simp)).2.2.2.2.2.2.2.2 hni
      · have hnbr : '\n' ∉ brSep := by decide
        have hnz : '\n' ∈ joinSep brSep (j :: rest') := by
          rcases List.mem_append.mp hn with h1 | h2
          · exact absurd h1 hni
          · rcases List.mem_append.mp h2 with h3 | h4
            · exact absurd h3 hnbr
            · exact h4
        have htw : (i ++ (brSep ++ joinSep brSep (j :: rest'))).takeWhile (· ≠ '\n')
            = i ++ (brSep ++ (joinSep brSep (j :: rest')).takeWhile (· ≠ '\n')) := by
          rw [takeWhile_append_all _ (fun c hc => by
              simp only [ne_eq, decide_eq_true_eq]
              rintro rfl
              exact hni hc),
            takeWhile_append_all _ (fun c hc => by
              simp only [ne_eq, decide_eq_true_eq]
              rintro rfl
              exact hnbr hc)]
        rw [htw]
        have ihc := ih (fun z hz => hprops z (List.mem_cons_of_mem _ hz)) hnz
        rw [endsColon_strip] at ihc ⊢
        rw [lastNonWs, List.filter_append, List.filter_append,
          List.getLast?_append, List.getLast?_append]
        have hbr : brSep.filter (fun c => !(isPySpace c)) = brSep := by decide
        rw [hbr]
        rw [lastNonWs] at ihc
        cases hfT : ((joinSep brSep (j :: rest')).takeWhile (· ≠ '\n')).filter
            (fun c => !(isPySpace c)) with
        | nil =>
          rw [hfT] at ihc
          simp [show brSep.getLast? = some '>' from by decide]
        | cons a as =>
          rw [hfT] at ihc
          have hsome : (a :: as).getLast? = some ((a :: as).getLast (by simp)) :=
            List.getLast?_eq_getLast_of_ne_nil (by simp)
          rw [hsome] at ihc ⊢
          simpa using ihc

/-- A join of invariant-satisfying items is `strip`-fixed. -/
theorem joinSep_strip_self (items : List (List Char))
    (hprops : ∀ i ∈ items, ItemOK i) (hne : items ≠ []) :
    strip (joinSep brSep items) = joinSep brSep items := by
  apply strip_eq_self
  · intro c hc
    cases items with
    | nil => exact absurd rfl hne
    | cons i rest =>
      rw [joinSep_head brSep i rest (hprops i (by simp)).1] at hc
      exact head?_strip_not_ws i c (by rw [(hprops i (by simp)).2.1]; exact hc)
  · intro c hc
    obtain ⟨last, hmem, hlast⟩ :=
      joinSep_getLast brSep items (fun i hi => (hprops i hi).1) hne
    rw [hlast] at hc
    exact getLast?_strip_not_ws last c (by rw [(hprops last hmem).2.1]; exact hc)

/-- The join of invariant-satisfying items itself satisfies the item
invariant. -/
theorem joinSep_itemOK (items : List (List Char))
    (hprops : ∀ i ∈ items, ItemOK i) (hne : items ≠ []) :
    ItemOK (joinSep brSep items) := by
  refine ⟨?_, joinSep_strip_self items hprops hne, ?_, ?_, ?_, ?_, ?_, ?_,
    joinSep_first_line items hprops⟩
  · cases items with
    | nil => exact absurd rfl hne
    | cons i rest => exact joinSep_ne_nil brSep i rest (hprops i (by simp)).1
  · exact not_infix_joinSep (by decide) (by decide) (by decide) items
      (fun i hi => (hprops i hi).2.2.1)
  · exact not_infix_joinSep (by decide) (by decide) (by decide) items
      (fun i hi => (hprops i hi).2.2.2.1)
  · intro hm
    rcases mem_joinSep hm with hsep | ⟨i, hi, hci⟩
    · simp [brSep] at hsep
    · exact (hprops i hi).2.2.2.2.1 hci
  · intro hm
    rcases mem_joinSep hm with hsep | ⟨i, hi, hci⟩
    · simp [brSep] at hsep
    · exact (hprops i hi).2.2.2.2.2.1 hci
  · intro hm
    rcases mem_joinSep hm with hsep | ⟨i, hi, hci⟩
    · simp [brSep] at hsep
    · exact (hprops i hi).2.2.2.2.2.2.1 hci
  · exact not_infix_joinSep (by decide) (by decide) (by decide) items
      (fun i hi => (hprops i hi).2.2.2.2.2.2.2.1)

/-- Counterexample to claim C10 as stated, at two already-clean inputs.
First, a whitespace-only non-empty string formats to the empty string,
which re-formats to the no-content placeholder.  Second, removing the
interior `*` glyph from `[STR[WEAK*NESS]ENGTH]` manufactures a
`[WEAKNESS]` marker whose removal in turn manufactures `[STRENGTH]`,
which only the second pass removes. -/
theorem c10_counterexample :
    (CleanOrig " ".data ∧
      format_analysis_result (format_analysis_result " ".data)
        ≠ format_analysis_result " ".data) ∧
    (CleanOrig "hello [STR[WEAK*NESS]ENGTH] world".data ∧
      format_analysis_result
          (format_analysis_result "hello [STR[WEAK*NESS]ENGTH] world".data)
        ≠ format_analysis_result "hello [STR[WEAK*NESS]ENGTH] world".data) := by
  decide

/-- Claim C10 (amended): `format_analysis_result` is idempotent on every
already-clean input (no tag markers, no leading or trailing bullet glyph)
such that additionally the bullet-glyph removal does not itself
manufacture a tag marker and the input is empty or contains at least one
character that is neither whitespace nor a bullet glyph. -/
theorem c10_format_idem (x : List Char) (hclean : CleanOrig x)
    (h5 : ¬ tagStrength <:+: removeGlyphs x)
    (h6 : ¬ tagWeakness <:+: removeGlyphs x)
    (h7 : x = [] ∨ ∃ c ∈ x, isPySpace c = false ∧ c ∉ bulletGlyphs) :
    format_analysis_result (format_analysis_result x) = format_analysis_result x := by
  rcases h7 with rfl | ⟨c, hcx, hcw, hcg⟩
  · rw [show format_analysis_result [] = noContentMsg from by
      rw [format_analysis_result]
      simp]
    decide
  · have hxe : x ≠ [] := List.ne_nil_of_mem hcx
    have hrepl : applyReplacements x = removeGlyphs x := by
      rw [applyReplacements, removeTag_eq_self _ _ h5, removeTag_eq_self _ _ h6]
    have hgG1 : '*' ∉ removeGlyphs x := not_mem_removeChar '*' _
    have hgG2 : '+' ∉ removeGlyphs x := fun hm =>
      not_mem_removeChar '+' _ (mem_of_mem_removeChar (mem_of_mem_removeChar hm))
    have hgG3 : '•' ∉ removeGlyphs x := fun hm =>
      not_mem_removeChar '•' _ (mem_of_mem_removeChar hm)
    have hitemsOK := sectionItems_ok (removeGlyphs x) h5 h6 hgG1 hgG2 hgG3
    have hc1 : c ≠ '*' := fun e => hcg (by rw [e]; simp [bulletGlyphs])
    have hc2 : c ≠ '+' := fun e => hcg (by rw [e]; simp [bulletGlyphs])
    have hc3 : c ≠ '•' := fun e => hcg (by rw [e]; simp [bulletGlyphs])
    have hcg' : c ∈ removeGlyphs x := by
      rw [removeGlyphs]
      exact mem_removeChar_of_ne (mem_removeChar_of_ne (mem_removeChar_of_ne
        (mem_removeChar_of_ne hcx hc1) hc2) hc3) hc1
    have hcnl : c ≠ '\n' := by
      intro e
      rw [e] at hcw
      exact absurd hcw (by decide)
    obtain ⟨sec, hsec, hcsec⟩ := splitNL4_mem_char (removeGlyphs x) c hcg' hcnl
    have hsne : strip sec ≠ [] := strip_ne_nil_of_mem sec c hcsec hcw
    have hitemsne : sectionItems (removeGlyphs x) ≠ [] := by
      obtain ⟨i0, hi0⟩ := List.exists_mem_of_ne_nil _ (processSection_ne_nil (strip sec))
      refine List.ne_nil_of_mem (?_ : i0 ∈ sectionItems (removeGlyphs x))
      rw [sectionItems, List.mem_flatMap]
      refine ⟨sec, hsec, ?_⟩
      show i0 ∈ (if strip sec = [] then [] else processSection (strip sec))
      rw [if_neg hsne]
      exact hi0
    have hyOK := joinSep_itemOK _ hitemsOK hitemsne
    have hfx : format_analysis_result x = joinSep brSep (sectionItems (removeGlyphs x)) := by
      rw [format_analysis_result, if_neg hxe, hrepl]
    rw [hfx, format_fixed _ hyOK]

/-- Witness for C10 (amended) at a concrete clean heading-and-items
input. -/
theorem c10_witness :
    format_analysis_result (format_analysis_result "T:\n  item one\n  item two".data)
      = format_analysis_result "T:\n  item one\n  item two".data :=
  c10_format_idem "T:\n  item one\n  item two".data (by decide) (by decide) (by decide)
    (by decide)

end RRS
